import Mathlib

/-! Verification of the BLAKE3 hash engine and Decred mining adapter of this
repository. The definitions below are a shallow embedding of
src/miner/core/src/3rdparty/blake3/blake3.c and
src/miner/core/src/crypto/blake3dcr/Blake3DCR.cpp.

Conventions of the embedding:
- bytes and 32-bit words are Nat, with explicit masking by 0xFFFFFFFF (or 0xFF)
  exactly where C unsigned arithmetic wraps; Nat.land, Nat.lor, Nat.xor,
  Nat.shiftLeft and Nat.shiftRight are used directly for C bitwise operators;
- C byte arrays with a tracked length are List Nat (the tracked length is the
  list length); C passes (pointer, length) pairs, the embedding passes lists;
- the fixed 16-word compression state uint32_t state[16] and the 16-word
  message uint32_t msg[16] are structures with one field per slot, and the
  8-word uint32_t cv[8] / key[8] arrays are an 8-field structure;
- the chunk block buffer uint8_t buf[64] together with buf_len is a list
  holding exactly the first buf_len bytes; the C code keeps the remaining
  bytes zero (memset in chunk_state_init and chunk_state_update), so reading
  the full 64-byte array is reading the list padded with zeros (pad64);
- the cv stack uint8_t cv_stack[...] with cv_stack_len is a list of 32-byte
  lists whose head is the most recently pushed entry (the top). -/

def BLAKE3_KEY_LEN : Nat := 32
def BLAKE3_OUT_LEN : Nat := 32
def BLAKE3_BLOCK_LEN : Nat := 64
def BLAKE3_CHUNK_LEN : Nat := 1024

def CHUNK_START : Nat := 1
def CHUNK_END : Nat := 2
def PARENT : Nat := 4
def ROOT : Nat := 8
def KEYED_HASH : Nat := 16
def DERIVE_KEY_CONTEXT : Nat := 32
def DERIVE_KEY_MATERIAL : Nat := 64

/-- Words16 models a C array of 16 uint32 values (state or msg); field si is
slot i. -/
structure Words16 where
  s0 : Nat
  s1 : Nat
  s2 : Nat
  s3 : Nat
  s4 : Nat
  s5 : Nat
  s6 : Nat
  s7 : Nat
  s8 : Nat
  s9 : Nat
  s10 : Nat
  s11 : Nat
  s12 : Nat
  s13 : Nat
  s14 : Nat
  s15 : Nat
deriving DecidableEq

/-- Words8 models a C array of 8 uint32 values (a chaining value or a key). -/
structure Words8 where
  w0 : Nat
  w1 : Nat
  w2 : Nat
  w3 : Nat
  w4 : Nat
  w5 : Nat
  w6 : Nat
  w7 : Nat
deriving DecidableEq

/-- IV from blake3.c (BLAKE3_IV_0 .. BLAKE3_IV_7 of blake3.h). -/
def IV : Words8 :=
  ⟨0x6A09E667, 0xBB67AE85, 0x3C6EF372, 0xA54FF53A,
   0x510E527F, 0x9B05688C, 0x1F83D9AB, 0x5BE0CD19⟩

/-- Addition of two uint32 values, wrapping mod 2^32. -/
def add32 (x y : Nat) : Nat := Nat.land (Nat.add x y) 0xFFFFFFFF

/-- rotr32 from blake3.c: (w >> c) | (w << (32 - c)) on uint32. -/
def rotr32 (w c : Nat) : Nat :=
  Nat.land (Nat.lor (Nat.shiftRight w c) (Nat.shiftLeft w (32 - c))) 0xFFFFFFFF

/-- load32_le from blake3.c; src stands for the C pointer into the byte
array (the embedding passes the suffix starting at that pointer). -/
def load32_le (src : List Nat) : Nat :=
  Nat.lor (Nat.lor (Nat.lor (src.getD 0 0) (Nat.shiftLeft (src.getD 1 0) 8))
    (Nat.shiftLeft (src.getD 2 0) 16)) (Nat.shiftLeft (src.getD 3 0) 24)

/-- store32_le from blake3.c, as the list of the 4 bytes written. -/
def store32_le (w : Nat) : List Nat :=
  [Nat.land w 0xFF, Nat.land (Nat.shiftRight w 8) 0xFF,
   Nat.land (Nat.shiftRight w 16) 0xFF, Nat.land (Nat.shiftRight w 24) 0xFF]

/-- Quarter round g from blake3.c. The C function mutates state slots
a, b, c, d in this order; here the four slot values are taken and the four
new values are returned. -/
def g (a b c d x y : Nat) : Nat × Nat × Nat × Nat :=
  let a := add32 (add32 a b) x
  let d := rotr32 (Nat.xor d a) 16
  let c := add32 c d
  let b := rotr32 (Nat.xor b c) 12
  let a := add32 (add32 a b) y
  let d := rotr32 (Nat.xor d a) 8
  let c := add32 c d
  let b := rotr32 (Nat.xor b c) 7
  (a, b, c, d)

/-- The body of round_fn from blake3.c: eight g calls on the column and
diagonal slot patterns of the C code. The 16 message arguments are the block
words already permuted by the schedule of the round (round_fn below applies
the MSG_SCHEDULE rows). Rebinding a slot name models the in-place update of
state[i] by g. -/
def round_words (state : Words16)
    (m0 m1 m2 m3 m4 m5 m6 m7 m8 m9 m10 m11 m12 m13 m14 m15 : Nat) : Words16 :=
  match state with
  | ⟨s0, s1, s2, s3, s4, s5, s6, s7, s8, s9, s10, s11, s12, s13, s14, s15⟩ =>
    let (s0, s4, s8, s12) := g s0 s4 s8 s12 m0 m1
    let (s1, s5, s9, s13) := g s1 s5 s9 s13 m2 m3
    let (s2, s6, s10, s14) := g s2 s6 s10 s14 m4 m5
    let (s3, s7, s11, s15) := g s3 s7 s11 s15 m6 m7
    let (s0, s5, s10, s15) := g s0 s5 s10 s15 m8 m9
    let (s1, s6, s11, s12) := g s1 s6 s11 s12 m10 m11
    let (s2, s7, s8, s13) := g s2 s7 s8 s13 m12 m13
    let (s3, s4, s9, s14) := g s3 s4 s9 s14 m14 m15
    ⟨s0, s1, s2, s3, s4, s5, s6, s7, s8, s9, s10, s11, s12, s13, s14, s15⟩

/-- round_fn from blake3.c: one branch per row of the MSG_SCHEDULE table of
blake3.c, each listing msg[schedule[0]] .. msg[schedule[15]] for that row.
Row 0 is the identity permutation; the other rows are the table rows
written out. -/
def round_fn (state : Words16) (msg : Words16) (round : Nat) : Words16 :=
  match round with
  | 0 => round_words state msg.s0 msg.s1 msg.s2 msg.s3 msg.s4 msg.s5 msg.s6
      msg.s7 msg.s8 msg.s9 msg.s10 msg.s11 msg.s12 msg.s13 msg.s14 msg.s15
  | 1 => round_words state msg.s2 msg.s6 msg.s3 msg.s10 msg.s7 msg.s0 msg.s4
      msg.s13 msg.s1 msg.s11 msg.s12 msg.s5 msg.s9 msg.s14 msg.s15 msg.s8
  | 2 => round_words state msg.s3 msg.s4 msg.s10 msg.s12 msg.s13 msg.s2 msg.s7
      msg.s14 msg.s6 msg.s5 msg.s9 msg.s0 msg.s11 msg.s15 msg.s8 msg.s1
  | 3 => round_words state msg.s10 msg.s7 msg.s12 msg.s9 msg.s14 msg.s3 msg.s13
      msg.s15 msg.s4 msg.s0 msg.s11 msg.s2 msg.s5 msg.s8 msg.s1 msg.s6
  | 4 => round_words state msg.s12 msg.s13 msg.s9 msg.s11 msg.s15 msg.s10 msg.s14
      msg.s8 msg.s7 msg.s2 msg.s5 msg.s3 msg.s0 msg.s1 msg.s6 msg.s4
  | 5 => round_words state msg.s9 msg.s14 msg.s11 msg.s5 msg.s8 msg.s12 msg.s15
      msg.s1 msg.s13 msg.s3 msg.s0 msg.s10 msg.s2 msg.s6 msg.s4 msg.s7
  | 6 => round_words state msg.s11 msg.s15 msg.s5 msg.s0 msg.s1 msg.s9 msg.s8
      msg.s6 msg.s14 msg.s10 msg.s2 msg.s12 msg.s3 msg.s4 msg.s7 msg.s13
  | _ => state

/-- compress_pre from blake3.c: load the 16 little-endian message words from
the 64-byte block, build the 16-word state from the chaining value, the first
four IV words, the split 64-bit counter, block_len and flags, then run the 7
rounds. -/
def compress_pre (cv : Words8) (block : List Nat) (block_len counter flags : Nat) : Words16 :=
  let msg : Words16 :=
    ⟨load32_le block, load32_le (block.drop 4), load32_le (block.drop 8),
     load32_le (block.drop 12), load32_le (block.drop 16), load32_le (block.drop 20),
     load32_le (block.drop 24), load32_le (block.drop 28), load32_le (block.drop 32),
     load32_le (block.drop 36), load32_le (block.drop 40), load32_le (block.drop 44),
     load32_le (block.drop 48), load32_le (block.drop 52), load32_le (block.drop 56),
     load32_le (block.drop 60)⟩
  let state : Words16 :=
    ⟨cv.w0, cv.w1, cv.w2, cv.w3, cv.w4, cv.w5, cv.w6, cv.w7,
     IV.w0, IV.w1, IV.w2, IV.w3,
     Nat.land counter 0xFFFFFFFF, Nat.land (Nat.shiftRight counter 32) 0xFFFFFFFF,
     block_len, flags⟩
  (List.range 7).foldl (fun state round => round_fn state msg round) state

/-- compress_in_place from blake3.c: the new chaining value
state[i] ^ state[i+8]. -/
def compress_in_place (cv : Words8) (block : List Nat) (block_len counter flags : Nat) : Words8 :=
  let state := compress_pre cv block block_len counter flags
  ⟨Nat.xor state.s0 state.s8, Nat.xor state.s1 state.s9,
   Nat.xor state.s2 state.s10, Nat.xor state.s3 state.s11,
   Nat.xor state.s4 state.s12, Nat.xor state.s5 state.s13,
   Nat.xor state.s6 state.s14, Nat.xor state.s7 state.s15⟩

/-- compress_xof from blake3.c: the 64 output bytes, stored little-endian:
words 0..7 are state[i] ^ state[i+8], words 8..15 are state[i] ^ cv[i-8]. -/
def compress_xof (cv : Words8) (block : List Nat) (block_len counter flags : Nat) : List Nat :=
  let state := compress_pre cv block block_len counter flags
  store32_le (Nat.xor state.s0 state.s8) ++ store32_le (Nat.xor state.s1 state.s9) ++
  store32_le (Nat.xor state.s2 state.s10) ++ store32_le (Nat.xor state.s3 state.s11) ++
  store32_le (Nat.xor state.s4 state.s12) ++ store32_le (Nat.xor state.s5 state.s13) ++
  store32_le (Nat.xor state.s6 state.s14) ++ store32_le (Nat.xor state.s7 state.s15) ++
  store32_le (Nat.xor state.s8 cv.w0) ++ store32_le (Nat.xor state.s9 cv.w1) ++
  store32_le (Nat.xor state.s10 cv.w2) ++ store32_le (Nat.xor state.s11 cv.w3) ++
  store32_le (Nat.xor state.s12 cv.w4) ++ store32_le (Nat.xor state.s13 cv.w5) ++
  store32_le (Nat.xor state.s14 cv.w6) ++ store32_le (Nat.xor state.s15 cv.w7)

/-- The 64-byte block array of the chunk state: the buffered bytes followed
by the zero bytes the C code maintains past buf_len. -/
def pad64 (buf : List Nat) : List Nat := buf ++ List.replicate (64 - buf.length) 0

/-- blake3_chunk_state from blake3.h. The field buf holds exactly the
buffered bytes, so buf.length plays the role of buf_len. -/
structure Blake3ChunkState where
  cv : Words8
  chunk_counter : Nat
  buf : List Nat
  blocks_compressed : Nat
  flags : Nat
deriving DecidableEq

/-- chunk_state_init from blake3.c. -/
def chunk_state_init (key : Words8) (flags : Nat) : Blake3ChunkState :=
  { cv := key, chunk_counter := 0, buf := [], blocks_compressed := 0, flags := flags }

/-- chunk_state_len from blake3.c. -/
def chunk_state_len (self : Blake3ChunkState) : Nat :=
  BLAKE3_BLOCK_LEN * self.blocks_compressed + self.buf.length

/-- chunk_state_fill_buf from blake3.c: append min(64 - buf_len, input_len)
bytes to the buffer; returns the new state and take. -/
def chunk_state_fill_buf (self : Blake3ChunkState) (input : List Nat) :
    Blake3ChunkState × Nat :=
  let take := min (64 - self.buf.length) input.length
  ({ self with buf := self.buf ++ input.take take }, take)

/-- chunk_state_maybe_start_flag from blake3.c. -/
def chunk_state_maybe_start_flag (self : Blake3ChunkState) : Nat :=
  if self.blocks_compressed = 0 then CHUNK_START else 0

/-- The while (input_len > BLAKE3_BLOCK_LEN) loop of chunk_state_update:
compress full 64-byte windows directly from the input while more than 64
bytes remain; returns the state and the remaining input. Each iteration of
the C loop consumes 64 bytes, so the caller passes input.length as fuel. -/
def chunk_state_update_loop (self : Blake3ChunkState) (input : List Nat) :
    Nat → Blake3ChunkState × List Nat
  | 0 => (self, input)
  | fuel + 1 =>
    if BLAKE3_BLOCK_LEN < input.length then
      chunk_state_update_loop
        { self with
          cv := compress_in_place self.cv (input.take 64) BLAKE3_BLOCK_LEN
            self.chunk_counter (self.flags ||| chunk_state_maybe_start_flag self),
          blocks_compressed := self.blocks_compressed + 1 }
        (input.drop 64) fuel
    else (self, input)

/-- chunk_state_update from blake3.c: top up a pending partial buffer and
compress it as soon as further input remains, compress full blocks from the
input while more than one block remains, and buffer the rest. -/
def chunk_state_update (self : Blake3ChunkState) (input : List Nat) : Blake3ChunkState :=
  let (self, input) :=
    if 0 < self.buf.length then
      let (self, take) := chunk_state_fill_buf self input
      let input := input.drop take
      if 0 < input.length then
        ({ self with
           cv := compress_in_place self.cv (pad64 self.buf) BLAKE3_BLOCK_LEN
             self.chunk_counter (self.flags ||| chunk_state_maybe_start_flag self),
           blocks_compressed := self.blocks_compressed + 1,
           buf := [] }, input)
      else (self, input)
    else (self, input)
  let (self, input) := chunk_state_update_loop self input input.length
  (chunk_state_fill_buf self input).1

/-- chunk_state_output from blake3.c: the first 32 bytes of the wide output
of the current buffer compressed with CHUNK_END (and CHUNK_START if no block
was compressed yet). -/
def chunk_state_output (self : Blake3ChunkState) : List Nat :=
  (compress_xof self.cv (pad64 self.buf) self.buf.length self.chunk_counter
    (self.flags ||| chunk_state_maybe_start_flag self ||| CHUNK_END)).take 32

/-- blake3_hasher from blake3.h. cv_stack lists the pushed 32-byte subtree
chaining values, most recent (top of stack) first; its length plays the role
of cv_stack_len. -/
structure Blake3Hasher where
  key : Words8
  chunk : Blake3ChunkState
  cv_stack : List (List Nat)
deriving DecidableEq

/-- blake3_hasher_init from blake3.c. -/
def blake3_hasher_init : Blake3Hasher :=
  { key := IV, chunk := chunk_state_init IV 0, cv_stack := [] }

/-- blake3_hasher_init_keyed from blake3.c: the 32 key bytes are loaded as 8
little-endian words. -/
def blake3_hasher_init_keyed (key : List Nat) : Blake3Hasher :=
  let key_words : Words8 :=
    ⟨load32_le key, load32_le (key.drop 4), load32_le (key.drop 8),
     load32_le (key.drop 12), load32_le (key.drop 16), load32_le (key.drop 20),
     load32_le (key.drop 24), load32_le (key.drop 28)⟩
  { key := key_words, chunk := chunk_state_init key_words KEYED_HASH, cv_stack := [] }

/-- __builtin_popcountll used by hasher_merge_cv_stack: the number of set
bits of the 64-bit total_len value (the bits argument starts at 64, the
width of unsigned long long). -/
def popcountll_go : Nat → Nat → Nat
  | _, 0 => 0
  | 0, _ => 0
  | bits + 1, n => n % 2 + popcountll_go bits (n / 2)

def popcountll (n : Nat) : Nat := popcountll_go 64 n

/-- The byte image of a chaining value as hasher_merge_cv_stack stores it:
store32_le of each of the 8 words. -/
def cv_to_bytes (cv : Words8) : List Nat :=
  store32_le cv.w0 ++ store32_le cv.w1 ++ store32_le cv.w2 ++ store32_le cv.w3 ++
  store32_le cv.w4 ++ store32_le cv.w5 ++ store32_le cv.w6 ++ store32_le cv.w7

/-- The while loop of hasher_merge_cv_stack from blake3.c: while the stack is
longer than post_merge_stack_len, replace the two most recent entries by
their parent chaining value (parent block = lower entry ++ upper entry,
counter 0, flags | PARENT). Each iteration shortens the stack by one entry,
so the caller passes the stack length as fuel. -/
def hasher_merge_cv_stack_loop (key : Words8) (flags : Nat) (post : Nat)
    (stack : List (List Nat)) : Nat → List (List Nat)
  | 0 => stack
  | fuel + 1 =>
    if post < stack.length then
      match stack with
      | r :: l :: rest =>
          hasher_merge_cv_stack_loop key flags post
            (cv_to_bytes (compress_in_place key (l ++ r) BLAKE3_BLOCK_LEN 0
              (flags ||| PARENT)) :: rest) fuel
      | _ => stack
    else stack

/-- hasher_merge_cv_stack from blake3.c: post_merge_stack_len is
popcount(total_len). -/
def hasher_merge_cv_stack (self : Blake3Hasher) (total_len : Nat) : Blake3Hasher :=
  { self with
    cv_stack := hasher_merge_cv_stack_loop self.key self.chunk.flags
      (popcountll total_len) self.cv_stack self.cv_stack.length }

/-- hasher_push_cv from blake3.c. -/
def hasher_push_cv (self : Blake3Hasher) (new_cv : List Nat) (chunk_counter : Nat) :
    Blake3Hasher :=
  let self := hasher_merge_cv_stack self chunk_counter
  { self with cv_stack := new_cv :: self.cv_stack }

/-- One iteration body plus loop of blake3_hasher_update from blake3.c,
with fuel bounding the number of iterations (each iteration of the C while
loop consumes at least one input byte, so input.length fuel suffices). -/
def blake3_hasher_update_go (self : Blake3Hasher) (input : List Nat) :
    Nat → Blake3Hasher
  | 0 => self
  | fuel + 1 =>
    if input = [] then self
    else
      let self :=
        if chunk_state_len self.chunk = BLAKE3_CHUNK_LEN then
          let chunk_cv := chunk_state_output self.chunk
          let total_chunks := self.chunk.chunk_counter + 1
          let self := hasher_push_cv self chunk_cv total_chunks
          { self with chunk :=
              { chunk_state_init self.key self.chunk.flags with
                chunk_counter := total_chunks } }
        else self
      let want := BLAKE3_CHUNK_LEN - chunk_state_len self.chunk
      let take := if want < input.length then want else input.length
      let self := { self with chunk := chunk_state_update self.chunk (input.take take) }
      blake3_hasher_update_go self (input.drop take) fuel

/-- blake3_hasher_update from blake3.c. -/
def blake3_hasher_update (self : Blake3Hasher) (input : List Nat) : Blake3Hasher :=
  blake3_hasher_update_go self input input.length

/-- blake3_hasher_init_derive_key_raw from blake3.c: hash the context with
DERIVE_KEY_CONTEXT, load the 32-byte digest as the key, set
DERIVE_KEY_MATERIAL. blake3_hasher_finalize is defined below; the context
digest is spelled out here as finalize does (stack empty or not). -/
def blake3_hasher_finalize_seek (self : Blake3Hasher) (seek : Nat) (out_len : Nat) :
    List Nat :=
  if out_len = 0 then []
  else if self.cv_stack.length = 0 then
    let block_flags :=
      self.chunk.flags ||| chunk_state_maybe_start_flag self.chunk ||| CHUNK_END ||| ROOT
    let output_block_counter := seek / 64
    let offset_within_block := seek % 64
    let wide_buf := compress_xof self.chunk.cv (pad64 self.chunk.buf)
      self.chunk.buf.length output_block_counter block_flags
    let available_bytes := 64 - offset_within_block
    let copy_len := if out_len < available_bytes then out_len else available_bytes
    (wide_buf.drop offset_within_block).take copy_len ++
      blake3_hasher_finalize_seek_loop self (output_block_counter + 1) block_flags
        (out_len - copy_len) (out_len - copy_len)
  else
    let chunk_cv := chunk_state_output self.chunk
    (blake3_hasher_finalize_fold self.key self.chunk.flags self.cv_stack chunk_cv).take
      (if out_len < BLAKE3_OUT_LEN then out_len else BLAKE3_OUT_LEN)
where
  /-- The while (out_len > 0) loop of the empty-stack branch: emit successive
  64-byte wide blocks. Each iteration emits at least one byte, so the entry
  call passes out_len as fuel. -/
  blake3_hasher_finalize_seek_loop (self : Blake3Hasher) (counter flags out_len : Nat) :
      Nat → List Nat
    | 0 => []
    | fuel + 1 =>
      if out_len = 0 then []
      else
        let wide_buf := compress_xof self.chunk.cv (pad64 self.chunk.buf)
          self.chunk.buf.length counter flags
        let copy_len := if out_len < 64 then out_len else 64
        wide_buf.take copy_len ++
          blake3_hasher_finalize_seek_loop self (counter + 1) flags (out_len - copy_len) fuel
  /-- The while (num_cvs > 0) loop of the non-empty branch: fold the stack
  entries from the most recent to the bottom into the running right-hand
  32-byte value; ROOT is set on the final (bottom) combination. -/
  blake3_hasher_finalize_fold (key : Words8) (chunk_flags : Nat) :
      List (List Nat) → List Nat → List Nat
  | [], right => right
  | l :: rest, right =>
      let flags := chunk_flags ||| PARENT ||| (if rest = [] then ROOT else 0)
      blake3_hasher_finalize_fold key chunk_flags rest
        (cv_to_bytes (compress_in_place key (l ++ right) BLAKE3_BLOCK_LEN 0 flags))

/-- blake3_hasher_finalize from blake3.c. -/
def blake3_hasher_finalize (self : Blake3Hasher) (out_len : Nat) : List Nat :=
  blake3_hasher_finalize_seek self 0 out_len

/-- blake3_hasher_init_derive_key_raw from blake3.c. -/
def blake3_hasher_init_derive_key_raw (context : List Nat) : Blake3Hasher :=
  let context_hasher : Blake3Hasher :=
    { key := IV, chunk := chunk_state_init IV DERIVE_KEY_CONTEXT, cv_stack := [] }
  let context_hasher := blake3_hasher_update context_hasher context
  let context_key := blake3_hasher_finalize context_hasher BLAKE3_KEY_LEN
  let context_key_words : Words8 :=
    ⟨load32_le context_key, load32_le (context_key.drop 4),
     load32_le (context_key.drop 8), load32_le (context_key.drop 12),
     load32_le (context_key.drop 16), load32_le (context_key.drop 20),
     load32_le (context_key.drop 24), load32_le (context_key.drop 28)⟩
  { key := context_key_words,
    chunk := chunk_state_init context_key_words DERIVE_KEY_MATERIAL, cv_stack := [] }

/-- blake3_hasher_reset from blake3.c. -/
def blake3_hasher_reset (self : Blake3Hasher) : Blake3Hasher :=
  { self with
    chunk := chunk_state_init self.key
      (Nat.land self.chunk.flags (KEYED_HASH ||| DERIVE_KEY_MATERIAL)),
    cv_stack := [] }

/-- blake3_hash from blake3.c: one-shot init, update, finalize with 32-byte
output. -/
def blake3_hash (input : List Nat) : List Nat :=
  blake3_hasher_finalize (blake3_hasher_update blake3_hasher_init input) BLAKE3_OUT_LEN

/-- BLOCK_HEADER_SIZE from Blake3DCR.h. -/
def BLOCK_HEADER_SIZE : Nat := 180

/-- NONCE_OFFSET from Blake3DCR.h. -/
def NONCE_OFFSET : Nat := 140

/-- The working buffer of Blake3DCR::calculate: the 180 header bytes copied,
with the 4 bytes at NONCE_OFFSET overwritten by the little-endian nonce
(each (uint8_t)(nonce >> 8k) cast is a mask by 0xFF). -/
def Blake3DCR_work (header : List Nat) (nonce : Nat) : List Nat :=
  let work := header.take BLOCK_HEADER_SIZE
  let work := work.set NONCE_OFFSET (Nat.land nonce 0xFF)
  let work := work.set (NONCE_OFFSET + 1) (Nat.land (Nat.shiftRight nonce 8) 0xFF)
  let work := work.set (NONCE_OFFSET + 2) (Nat.land (Nat.shiftRight nonce 16) 0xFF)
  let work := work.set (NONCE_OFFSET + 3) (Nat.land (Nat.shiftRight nonce 24) 0xFF)
  work

/-- Blake3DCR::calculate from Blake3DCR.cpp: hash the working buffer.
The header itself is only read (the C code copies it into the local work
array), never written. -/
def Blake3DCR_calculate (header : List Nat) (nonce : Nat) : List Nat :=
  blake3_hash (Blake3DCR_work header nonce)

/-- The byte comparison loop of Blake3DCR::checkDifficulty: first lower byte
decides true, first higher byte decides false, all equal gives true. -/
def checkDifficulty_loop : List Nat → List Nat → Bool
  | h :: hs, t :: ts =>
      if h < t then true
      else if t < h then false
      else checkDifficulty_loop hs ts
  | _, _ => true

/-- Blake3DCR::checkDifficulty from Blake3DCR.cpp: compares the 32 bytes of
hash and target from index 0 upward. -/
def Blake3DCR_checkDifficulty (hash target : List Nat) : Bool :=
  checkDifficulty_loop (hash.take 32) (target.take 32)

/-- The value of a byte string read as a big-endian base-256 integer
(how checkDifficulty documents its arguments). -/
def beVal (bytes : List Nat) : Nat :=
  bytes.foldl (fun acc b => acc * 256 + b) 0

/-- The standard BLAKE3 test-vector input starting at absolute offset off:
byte j is (off + j) mod 251. -/
def tvFrom (off n : Nat) : List Nat :=
  (List.range n).map (fun j => (off + j) % 251)

/-- The standard BLAKE3 test-vector input of length n: byte j is j mod 251. -/
def tv (n : Nat) : List Nat := tvFrom 0 n

/-- The 64-byte wide output block of the active chunk at a given counter
(the compress_xof call the empty-stack finalize path repeats). -/
def xof_wide (h : Blake3Hasher) (flags counter : Nat) : List Nat :=
  compress_xof h.chunk.cv (pad64 h.chunk.buf) h.chunk.buf.length counter flags

/-- Byte i of the infinite output stream of the empty-stack finalize path:
byte i mod 64 of the wide block with counter i / 64. -/
def xof_stream_byte (h : Blake3Hasher) (flags i : Nat) : Nat :=
  (xof_wide h flags (i / 64)).getD (i % 64) 0

/-- The flush step at the top of the while loop body of blake3_hasher_update
in blake3.c: when the chunk state holds a full 1024 bytes, push its output
chaining value and start a fresh chunk with the next counter. -/
def hasher_flush (self : Blake3Hasher) : Blake3Hasher :=
  if chunk_state_len self.chunk = BLAKE3_CHUNK_LEN then
    let chunk_cv := chunk_state_output self.chunk
    let total_chunks := self.chunk.chunk_counter + 1
    let self := hasher_push_cv self chunk_cv total_chunks
    { self with chunk :=
        { chunk_state_init self.key self.chunk.flags with
          chunk_counter := total_chunks } }
  else self

/-- HasherWF collects the facts about the active chunk state that
blake3_hasher_update maintains: the chunk holds at most one full chunk of
data, its buffer holds at most one block, and a nonempty compression count
comes with a nonempty buffer. -/
def HasherWF (h : Blake3Hasher) : Prop :=
  chunk_state_len h.chunk ≤ 1024 ∧ h.chunk.buf.length ≤ 64 ∧
    (0 < h.chunk.blocks_compressed → h.chunk.buf ≠ [])

/-- Blake3Reachable holds of every hasher state produced by one of the init
entry points of blake3.c followed by any sequence of blake3_hasher_update
calls. -/
inductive Blake3Reachable : Blake3Hasher → Prop
  | init : Blake3Reachable blake3_hasher_init
  | init_keyed (key : List Nat) : Blake3Reachable (blake3_hasher_init_keyed key)
  | init_derive_key (context : List Nat) :
      Blake3Reachable (blake3_hasher_init_derive_key_raw context)
  | update (h : Blake3Hasher) (input : List Nat) :
      Blake3Reachable h → Blake3Reachable (blake3_hasher_update h input)

/-! Helper lemmas. -/

theorem store32_le_length (w : Nat) : (store32_le w).length = 4 := rfl

theorem cv_to_bytes_length (cv : Words8) : (cv_to_bytes cv).length = 32 := by
  simp [cv_to_bytes, store32_le]

theorem compress_xof_length (cv : Words8) (block : List Nat) (block_len counter flags : Nat) :
    (compress_xof cv block block_len counter flags).length = 64 := by
  simp [compress_xof, store32_le]

theorem chunk_state_output_length (c : Blake3ChunkState) :
    (chunk_state_output c).length = 32 := by
  simp [chunk_state_output, compress_xof_length]

/-! C10: update with empty input is the identity. -/

/-- C10: for every hasher state, blake3_hasher_update with a zero-length
input returns the state unchanged: the while loop body never runs, so no
compression happens, nothing is pushed, and no field changes. -/
theorem blake3_c10_update_nil (h : Blake3Hasher) : blake3_hasher_update h [] = h := rfl

/-! C8: reset clears chunk and stack state, keeps the key, masks the mode
flags. -/

/-- C8: blake3_hasher_reset sets cv_stack_len to 0, reinitialises the chunk
state (chaining value reloaded from the key, empty block buffer hence
buf_len 0, blocks_compressed 0, chunk_counter 0), keeps the key words, and
masks the chunk flags to KEYED_HASH|DERIVE_KEY_MATERIAL; no other hasher
field exists to change. -/
theorem blake3_c8_reset (h : Blake3Hasher) :
    (blake3_hasher_reset h).key = h.key ∧
    (blake3_hasher_reset h).cv_stack = [] ∧
    (blake3_hasher_reset h).chunk.cv = h.key ∧
    (blake3_hasher_reset h).chunk.chunk_counter = 0 ∧
    (blake3_hasher_reset h).chunk.buf = [] ∧
    (blake3_hasher_reset h).chunk.blocks_compressed = 0 ∧
    (blake3_hasher_reset h).chunk.flags =
      Nat.land h.chunk.flags (KEYED_HASH ||| DERIVE_KEY_MATERIAL) :=
  ⟨rfl, rfl, rfl, rfl, rfl, rfl, rfl⟩

/-! C4: checkDifficulty decides hash <= target on big-endian values. -/

theorem beVal_foldl (bs : List Nat) (a : Nat) :
    bs.foldl (fun acc b => acc * 256 + b) a =
      a * 256 ^ bs.length + bs.foldl (fun acc b => acc * 256 + b) 0 := by
  induction bs generalizing a with
  | nil => simp
  | cons b bs ih =>
      simp only [List.foldl_cons, List.length_cons]
      rw [ih (a * 256 + b), ih (0 * 256 + b)]
      ring

theorem beVal_cons (b : Nat) (bs : List Nat) :
    beVal (b :: bs) = b * 256 ^ bs.length + beVal bs := by
  simp only [beVal, List.foldl_cons]
  rw [beVal_foldl bs (0 * 256 + b)]
  ring

theorem beVal_lt (bs : List Nat) (hb : ∀ b ∈ bs, b < 256) :
    beVal bs < 256 ^ bs.length := by
  induction bs with
  | nil => simp [beVal]
  | cons b bs ih =>
      have hb0 : b < 256 := hb b (List.mem_cons_self b bs)
      have hrest : beVal bs < 256 ^ bs.length := ih (fun x hx => hb x (List.mem_cons_of_mem b hx))
      rw [beVal_cons]
      calc b * 256 ^ bs.length + beVal bs
          < b * 256 ^ bs.length + 256 ^ bs.length := by omega
        _ = (b + 1) * 256 ^ bs.length := by ring
        _ ≤ 256 * 256 ^ bs.length := Nat.mul_le_mul_right _ (by omega)
        _ = 256 ^ (b :: bs).length := by rw [List.length_cons]; ring

theorem checkDifficulty_loop_iff :
    ∀ hs ts : List Nat, hs.length = ts.length → (∀ b ∈ hs, b < 256) →
      (∀ b ∈ ts, b < 256) →
      (checkDifficulty_loop hs ts = true ↔ beVal hs ≤ beVal ts) := by
  intro hs
  induction hs with
  | nil =>
      intro ts hlen _ _
      cases ts with
      | nil => simp [checkDifficulty_loop]
      | cons t ts => simp at hlen
  | cons h hs ih =>
      intro ts hlen hhb htb
      cases ts with
      | nil => simp at hlen
      | cons t ts =>
        have hlen' : hs.length = ts.length := by simpa using hlen
        have hhs : ∀ b ∈ hs, b < 256 := fun x hx => hhb x (List.mem_cons_of_mem h hx)
        have hts : ∀ b ∈ ts, b < 256 := fun x hx => htb x (List.mem_cons_of_mem t hx)
        have hv : beVal hs < 256 ^ hs.length := beVal_lt hs hhs
        have tv : beVal ts < 256 ^ ts.length := beVal_lt ts hts
        rw [beVal_cons, beVal_cons]
        simp only [checkDifficulty_loop]
        rcases Nat.lt_trichotomy h t with hlt | heq | hgt
        · have hle : h + 1 ≤ t := hlt
          simp only [if_pos hlt, true_iff]
          refine Nat.le_of_lt ?_
          calc h * 256 ^ hs.length + beVal hs
              < h * 256 ^ hs.length + 256 ^ hs.length := by omega
            _ = (h + 1) * 256 ^ hs.length := by ring
            _ ≤ t * 256 ^ hs.length := Nat.mul_le_mul_right _ hle
            _ = t * 256 ^ ts.length := by rw [hlen']
            _ ≤ t * 256 ^ ts.length + beVal ts := by omega
        · subst heq
          simp only [Nat.lt_irrefl, if_false]
          rw [ih ts hlen' hhs hts, hlen']
          omega
        · have hle : t + 1 ≤ h := hgt
          simp only [if_neg (Nat.not_lt.2 (Nat.le_of_lt hgt)), if_pos hgt]
          constructor
          · intro hfalse; cases hfalse
          · intro habs
            exfalso
            have hcontr : t * 256 ^ ts.length + beVal ts < h * 256 ^ hs.length + beVal hs := by
              calc t * 256 ^ ts.length + beVal ts
                  < t * 256 ^ ts.length + 256 ^ ts.length := by omega
                _ = (t + 1) * 256 ^ ts.length := by ring
                _ ≤ h * 256 ^ ts.length := Nat.mul_le_mul_right _ hle
                _ = h * 256 ^ hs.length := by rw [hlen']
                _ ≤ h * 256 ^ hs.length + beVal hs := by omega
            omega

/-- C4: for 32-byte hash and target with byte values below 256,
Blake3DCR_checkDifficulty returns true exactly when the hash read as a
256-bit big-endian integer is at most the target read the same way. -/
theorem blake3_c4_check_difficulty (hash target : List Nat)
    (hl : hash.length = 32) (tl : target.length = 32)
    (hb : ∀ b ∈ hash, b < 256) (tb : ∀ b ∈ target, b < 256) :
    (Blake3DCR_checkDifficulty hash target = true ↔ beVal hash ≤ beVal target) := by
  unfold Blake3DCR_checkDifficulty
  rw [List.take_of_length_le (by omega), List.take_of_length_le (by omega)]
  exact checkDifficulty_loop_iff hash target (by omega) hb tb

/-- Witness for C4 at concrete inputs: the all-zero hash against the target
ending in byte 1. -/
theorem blake3_c4_check_difficulty_witness :
    (Blake3DCR_checkDifficulty (List.replicate 32 0)
        (List.replicate 31 0 ++ [1]) = true ↔
      beVal (List.replicate 32 0) ≤ beVal (List.replicate 31 0 ++ [1])) :=
  blake3_c4_check_difficulty _ _ (by simp) (by simp)
    (by intro b hb; simp at hb; omega) (by intro b hb; simp at hb; rcases hb with h | h <;> omega)

theorem set4_append (T : List Nat) (hT : T.length = 140) (d0 d1 d2 d3 : Nat)
    (rest : List Nat) (b0 b1 b2 b3 : Nat) :
    (((((T ++ d0 :: d1 :: d2 :: d3 :: rest).set 140 b0).set 141 b1).set 142 b2).set 143 b3)
      = T ++ b0 :: b1 :: b2 :: b3 :: rest := by
  simp [List.set_append_right, hT]

/-! C5: nonce injection of Blake3DCR::calculate. The second conjunct pins the
whole working buffer: bytes 0..139 and 144..179 are the header bytes and
bytes 140..143 are the little-endian nonce; the caller buffer is untouched
because the embedding (like the C code, which copies the const header into a
local array) only reads it. -/

/-- C5: for a 180-byte header, calculate hashes the working copy, which is
the header with bytes 140..143 replaced by the little-endian nonce and all
other 176 bytes unchanged. -/
theorem blake3_c5_calculate (header : List Nat) (nonce : Nat) (hl : header.length = 180) :
    Blake3DCR_calculate header nonce = blake3_hash (Blake3DCR_work header nonce) ∧
    Blake3DCR_work header nonce =
      header.take 140 ++
        [Nat.land nonce 0xFF, Nat.land (Nat.shiftRight nonce 8) 0xFF,
         Nat.land (Nat.shiftRight nonce 16) 0xFF, Nat.land (Nat.shiftRight nonce 24) 0xFF] ++
      header.drop 144 := by
  refine ⟨rfl, ?_⟩
  have h180 : header.take BLOCK_HEADER_SIZE = header :=
    List.take_of_length_le (by simp [BLOCK_HEADER_SIZE, hl])
  have h40 : (header.drop 140).length = 40 := by simp [hl]
  rcases hD : header.drop 140 with _ | ⟨d0, _ | ⟨d1, _ | ⟨d2, _ | ⟨d3, rest⟩⟩⟩⟩
  · rw [hD] at h40; simp at h40
  · rw [hD] at h40; simp at h40
  · rw [hD] at h40; simp at h40
  · rw [hD] at h40; simp at h40
  · have hsplit : header = header.take 140 ++ d0 :: d1 :: d2 :: d3 :: rest := by
      rw [← hD, List.take_append_drop]
    have hrest : header.drop 144 = rest := by
      rw [show (144 : Nat) = 140 + 4 from rfl, ← List.drop_drop, hD]
      rfl
    simp only [Blake3DCR_work, NONCE_OFFSET, h180]
    rw [hrest]
    conv_lhs => rw [hsplit]
    rw [show (140 + 1 : Nat) = 141 from rfl, show (140 + 2 : Nat) = 142 from rfl,
      show (140 + 3 : Nat) = 143 from rfl,
      set4_append (header.take 140) (by simp [hl])]
    simp

/-- Witness for C5: a concrete 180-byte header and the nonce 0x01020304 of
the spec example. -/
theorem blake3_c5_calculate_witness :
    Blake3DCR_calculate (List.replicate 180 0) 0x01020304 =
        blake3_hash (Blake3DCR_work (List.replicate 180 0) 0x01020304) ∧
      Blake3DCR_work (List.replicate 180 0) 0x01020304 =
        (List.replicate 180 0).take 140 ++
          [Nat.land 0x01020304 0xFF, Nat.land (Nat.shiftRight 0x01020304 8) 0xFF,
           Nat.land (Nat.shiftRight 0x01020304 16) 0xFF,
           Nat.land (Nat.shiftRight 0x01020304 24) 0xFF] ++
        (List.replicate 180 0).drop 144 :=
  blake3_c5_calculate (List.replicate 180 0) 0x01020304 (by simp only [List.length_replicate])

theorem finalize_fold_length (key : Words8) (chunk_flags : Nat) :
    ∀ (stack : List (List Nat)) (right : List Nat), right.length = 32 →
      (blake3_hasher_finalize_seek.blake3_hasher_finalize_fold key chunk_flags stack
        right).length = 32
  | [], right, hr => by
      simpa [blake3_hasher_finalize_seek.blake3_hasher_finalize_fold] using hr
  | l :: rest, right, hr => by
      rw [blake3_hasher_finalize_seek.blake3_hasher_finalize_fold]
      exact finalize_fold_length key chunk_flags rest _ (cv_to_bytes_length _)

/-! C7: the multi-chunk finalize path. The claim says min(out_len, 64) bytes
are produced; the code only ever exposes the first 32 bytes of the root
block (memcpy of at most BLAKE3_OUT_LEN = 32 bytes), so the correct bound is
min(out_len, 32). The counterexample below shows the claim false at
out_len = 64; the amended theorem proves the fold structure, the
independence from seek, and the min(out_len, 32) output length. -/

/-- C7 (amended): with a non-empty CV stack and out_len >= 1, finalize_seek
ignores seek, folds the chunk output through the stack from the most recent
entry to the bottom (ROOT is set only on the final combination inside
blake3_hasher_finalize_fold), and produces exactly min(out_len, 32) bytes:
the first bytes of the single root block. -/
theorem blake3_c7_root_output (h : Blake3Hasher) (seek out_len : Nat)
    (hs : h.cv_stack ≠ []) (ho : 1 ≤ out_len) :
    blake3_hasher_finalize_seek h seek out_len = blake3_hasher_finalize_seek h 0 out_len ∧
    (blake3_hasher_finalize_seek h seek out_len).length = min out_len 32 ∧
    blake3_hasher_finalize_seek h seek out_len =
      (blake3_hasher_finalize_seek.blake3_hasher_finalize_fold h.key h.chunk.flags
        h.cv_stack (chunk_state_output h.chunk)).take (min out_len 32) := by
  have hne : ¬ out_len = 0 := by omega
  have hsl : ¬ h.cv_stack.length = 0 := by
    simpa [List.length_eq_zero] using hs
  have hmin : (if out_len < BLAKE3_OUT_LEN then out_len else BLAKE3_OUT_LEN)
      = min out_len 32 := by
    unfold BLAKE3_OUT_LEN
    rcases Nat.lt_or_ge out_len 32 with hlt | hle
    · rw [if_pos hlt, Nat.min_eq_left (Nat.le_of_lt hlt)]
    · rw [if_neg (Nat.not_lt.2 hle), Nat.min_eq_right hle]
  simp only [blake3_hasher_finalize_seek, if_neg hne, if_neg hsl, hmin]
  refine ⟨trivial, ?_, trivial⟩
  rw [List.length_take,
    finalize_fold_length h.key h.chunk.flags h.cv_stack _ (chunk_state_output_length _)]
  omega

set_option maxRecDepth 1000000 in
/-- Counterexample for C7 as stated: on a hasher whose CV stack holds one
entry, finalize_seek with out_len = 64 does not produce min(64, 64) = 64
bytes (it produces 32). -/
theorem blake3_c7_counterexample :
    ¬ ((blake3_hasher_finalize_seek
        { key := IV, chunk := chunk_state_init IV 0, cv_stack := [cv_to_bytes IV] }
        0 64).length = min 64 64) := by decide!

/-- Witness for the amended C7 theorem at a concrete state, seek 5 and
out_len 40. -/
theorem blake3_c7_root_output_witness :
    blake3_hasher_finalize_seek
        { key := IV, chunk := chunk_state_init IV 0, cv_stack := [cv_to_bytes IV] } 5 40 =
      blake3_hasher_finalize_seek
        { key := IV, chunk := chunk_state_init IV 0, cv_stack := [cv_to_bytes IV] } 0 40 ∧
    (blake3_hasher_finalize_seek
        { key := IV, chunk := chunk_state_init IV 0, cv_stack := [cv_to_bytes IV] }
        5 40).length = min 40 32 ∧
    blake3_hasher_finalize_seek
        { key := IV, chunk := chunk_state_init IV 0, cv_stack := [cv_to_bytes IV] } 5 40 =
      (blake3_hasher_finalize_seek.blake3_hasher_finalize_fold IV
        (chunk_state_init IV 0).flags [cv_to_bytes IV]
        (chunk_state_output (chunk_state_init IV 0))).take (min 40 32) :=
  blake3_c7_root_output
    { key := IV, chunk := chunk_state_init IV 0, cv_stack := [cv_to_bytes IV] } 5 40
    (by simp) (by omega)


theorem take_eq_range_map :
    ∀ (n : Nat) (l : List Nat), n ≤ l.length →
      l.take n = (List.range n).map (fun i => l.getD i 0) := by
  intro n
  induction n with
  | zero => intro l _; simp
  | succ n ih =>
      intro l hn
      cases l with
      | nil => simp at hn
      | cons x xs =>
          rw [List.take_succ_cons, List.range_succ_eq_map, List.map_cons, List.map_map]
          have h1 : xs.take n = (List.range n).map (fun i => xs.getD i 0) :=
            ih xs (by simpa using hn)
          have h2 : ((fun i => (x :: xs).getD i 0) ∘ Nat.succ) = fun i => xs.getD i 0 := by
            funext i
            simp [Function.comp, List.getD]
          rw [h2, ← h1]
          simp [List.getD]

theorem slice_eq_range_map (off n : Nat) (l : List Nat) (hb : off + n ≤ l.length) :
    (l.drop off).take n = (List.range n).map (fun i => l.getD (off + i) 0) := by
  rw [take_eq_range_map n (l.drop off) (by simp; omega)]
  refine List.map_congr_left ?_
  intro i _
  rw [List.getD_eq_getElem?_getD, List.getD_eq_getElem?_getD, List.getElem?_drop]

theorem seek_loop_zero (h : Blake3Hasher) (flags c fuel : Nat) :
    blake3_hasher_finalize_seek.blake3_hasher_finalize_seek_loop h c flags 0 fuel = [] := by
  cases fuel with
  | zero => rfl
  | succ fuel => rfl

set_option maxHeartbeats 1000000 in
theorem seek_loop_eq (h : Blake3Hasher) (flags : Nat) :
    ∀ (fuel n c : Nat), n ≤ fuel →
      blake3_hasher_finalize_seek.blake3_hasher_finalize_seek_loop h c flags n fuel =
        (List.range n).map (fun i => xof_stream_byte h flags (64 * c + i)) := by
  intro fuel
  induction fuel with
  | zero =>
      intro n c hn
      have : n = 0 := by omega
      subst this
      simp [seek_loop_zero]
  | succ fuel ih =>
    intro n c hn
    rcases Nat.eq_zero_or_pos n with hz | hp
    · subst hz
      simp [seek_loop_zero]
    · rw [blake3_hasher_finalize_seek.blake3_hasher_finalize_seek_loop, if_neg (by omega)]
      dsimp only
      have hwl : (compress_xof h.chunk.cv (pad64 h.chunk.buf) h.chunk.buf.length c
          flags).length = 64 := compress_xof_length _ _ _ _ _
      rcases Nat.lt_or_ge n 64 with hn64 | hn64
      · rw [if_pos hn64, Nat.sub_self, seek_loop_zero, List.append_nil]
        rw [take_eq_range_map n _ (by omega)]
        refine List.map_congr_left ?_
        intro i hi
        have hi64 : i < 64 := by
          have := List.mem_range.1 hi; omega
        have e1 : (64 * c + i) / 64 = c := by omega
        have e2 : (64 * c + i) % 64 = i := by omega
        simp only [xof_stream_byte, xof_wide, e1, e2]
      · have hcopy : (if n < 64 then n else 64) = 64 := if_neg (by omega)
        rw [hcopy, ih (n - 64) (c + 1) (by omega)]
        have hsplit : n = 64 + (n - 64) := by omega
        conv_rhs => rw [hsplit, List.range_add, List.map_append, List.map_map]
        congr 1
        · rw [take_eq_range_map 64 _ (by omega)]
          refine List.map_congr_left ?_
          intro i hi
          have hi64 : i < 64 := by
            have := List.mem_range.1 hi; omega
          have e1 : (64 * c + i) / 64 = c := by omega
          have e2 : (64 * c + i) % 64 = i := by omega
          simp only [xof_stream_byte, xof_wide, e1, e2]
        · refine List.map_congr_left ?_
          intro i _
          simp only [Function.comp]
          have e : 64 * (c + 1) + i = 64 * c + (64 + i) := by ring
          rw [e]

set_option maxHeartbeats 1000000 in
theorem finalize_seek_empty_stack (h : Blake3Hasher) (hs : h.cv_stack.length = 0)
    (seek out_len : Nat) :
    blake3_hasher_finalize_seek h seek out_len =
      (List.range out_len).map (fun i =>
        xof_stream_byte h
          (h.chunk.flags ||| chunk_state_maybe_start_flag h.chunk ||| CHUNK_END ||| ROOT)
          (seek + i)) := by
  rcases Nat.eq_zero_or_pos out_len with hz | hp
  · subst hz
    rw [blake3_hasher_finalize_seek]
    simp
  · rw [blake3_hasher_finalize_seek, if_neg (by omega), if_pos hs]
    dsimp only
    have hoff : seek % 64 < 64 := Nat.mod_lt _ (by omega)
    have hqr : 64 * (seek / 64) + seek % 64 = seek := Nat.div_add_mod seek 64
    have hwl : (compress_xof h.chunk.cv (pad64 h.chunk.buf) h.chunk.buf.length (seek / 64)
        (h.chunk.flags ||| chunk_state_maybe_start_flag h.chunk ||| CHUNK_END |||
          ROOT)).length = 64 := compress_xof_length _ _ _ _ _
    rcases Nat.lt_or_ge out_len (64 - seek % 64) with hlt | hge
    · rw [if_pos hlt, Nat.sub_self, seek_loop_zero, List.append_nil]
      rw [slice_eq_range_map (seek % 64) out_len _ (by omega)]
      refine List.map_congr_left ?_
      intro i hi
      have hi' : i < out_len := List.mem_range.1 hi
      have e1 : (seek + i) / 64 = seek / 64 := by omega
      have e2 : (seek + i) % 64 = seek % 64 + i := by omega
      simp only [xof_stream_byte, xof_wide, e1, e2]
    · have hcopy : (if out_len < 64 - seek % 64 then out_len else 64 - seek % 64)
          = 64 - seek % 64 := if_neg (by omega)
      rw [hcopy, seek_loop_eq h _ _ _ _ (Nat.le_refl _)]
      have hsplit : out_len = (64 - seek % 64) + (out_len - (64 - seek % 64)) := by omega
      conv_rhs => rw [hsplit, List.range_add, List.map_append, List.map_map]
      congr 1
      · rw [slice_eq_range_map (seek % 64) (64 - seek % 64) _ (by omega)]
        refine List.map_congr_left ?_
        intro i hi
        have hi' : i < 64 - seek % 64 := List.mem_range.1 hi
        have e1 : (seek + i) / 64 = seek / 64 := by omega
        have e2 : (seek + i) % 64 = seek % 64 + i := by omega
        simp only [xof_stream_byte, xof_wide, e1, e2]
      · refine List.map_congr_left ?_
        intro i _
        simp only [Function.comp]
        have e : seek + (64 - seek % 64 + i) = 64 * (seek / 64 + 1) + i := by omega
        rw [e]

/-- C6: on the single-chunk path (empty CV stack), finalize_seek at offset k
returns exactly bytes [k, k + len) of the stream that finalize_seek at
offset 0 produces: the seekable XOF stream of wide root blocks. -/
theorem blake3_c6_seek_slice (h : Blake3Hasher) (hs : h.cv_stack = []) (k len : Nat) :
    blake3_hasher_finalize_seek h k len =
      ((blake3_hasher_finalize_seek h 0 (k + len)).drop k).take len := by
  have hs0 : h.cv_stack.length = 0 := by simp [hs]
  rw [finalize_seek_empty_stack h hs0 k len, finalize_seek_empty_stack h hs0 0 (k + len)]
  rw [← List.map_drop, List.range_add, List.drop_append_of_le_length (by simp),
    List.drop_eq_nil_of_le (by simp), List.nil_append, List.map_map]
  rw [List.take_of_length_le (by simp)]
  refine (List.map_congr_left ?_).symm
  intro i _
  simp only [Function.comp]
  rw [Nat.zero_add]

/-- Witness for C6: the freshly initialised hasher (empty stack), seek 70,
length 10. -/
theorem blake3_c6_seek_slice_witness :
    blake3_hasher_finalize_seek blake3_hasher_init 70 10 =
      ((blake3_hasher_finalize_seek blake3_hasher_init 0 80).drop 70).take 10 :=
  blake3_c6_seek_slice blake3_hasher_init rfl 70 10

/-! C2: the spec invariant stack_len == popcount(N) after N complete chunks.
The code merges with threshold popcount(total_chunks) where total_chunks
already includes the chunk being pushed (the upstream BLAKE3 reference
passes the pre-increment chunk counter), so after the N-th push the stack
holds popcount(N) + 1 entries for every N >= 2. The theorem evaluates the
code at the failing input N = 2: one update call of 2049 bytes completes
chunks 1 and 2 and pushes both chaining values, after which cv_stack_len is
2 while popcount(2) = 1. -/

set_option maxRecDepth 1000000 in
/-- C2 (code bug, evaluated at the failing input): after the second chunk
chaining value has been pushed (update of the 2049-byte test-vector input),
the stack length is 2, not popcount(2) = 1 as the claim states. -/
theorem blake3_c2_stack_len_bug :
    (blake3_hasher_update blake3_hasher_init (tv 2049)).cv_stack.length = 2 ∧
    popcountll 2 = 1 := by decide!

/-! C1: known-answer tests. The published BLAKE3 vectors (test input byte j =
j mod 251) are matched for lengths 0, 1, 1023, 1024 and 1025 - these runs
involve at most 2 chunks. For length 100000 the claim fails on this code:
the merge threshold bug shown in the C2 theorem yields a non-canonical tree
for 3 or more chunks, and the computed digest 5411373850..c7 (hex
541137385079a1c116669d3d937e1951cc5c2bb1033a985f80360a25f13ea4c7) differs
from the published value d93c23eedaf165a7e0be908ba86f1a7a520d568d2d13cde787
c8580c5c72cc54. -/

set_option maxRecDepth 1000000 in
/-- C1 (code bug at length 100000; the five short lengths check out): the
one-shot blake3_hash of the standard test-vector inputs of lengths 0, 1,
1023, 1024 and 1025 equals the published BLAKE3 digests. -/
theorem blake3_c1_known_answers :
    blake3_hash (tv 0) = [175, 19, 73, 185, 245, 249, 161, 166, 160, 64, 77, 234, 54, 220, 201, 73, 155, 203, 37, 201, 173, 193, 18, 183, 204, 154, 147, 202, 228, 31, 50, 98] ∧
    blake3_hash (tv 1) = [45, 58, 222, 223, 241, 27, 97, 241, 76, 136, 110, 53, 175, 160, 54, 115, 109, 205, 135, 167, 77, 39, 181, 193, 81, 2, 37, 208, 245, 146, 226, 19] ∧
    blake3_hash (tv 1023) = [16, 16, 137, 112, 238, 218, 62, 185, 50, 186, 172, 20, 40, 199, 162, 22, 59, 14, 146, 76, 154, 158, 37, 179, 91, 186, 114, 178, 143, 112, 189, 17] ∧
    blake3_hash (tv 1024) = [66, 33, 71, 57, 240, 149, 164, 6, 243, 252, 131, 222, 184, 137, 116, 74, 192, 13, 248, 49, 193, 13, 170, 85, 24, 155, 93, 18, 28, 133, 90, 247] ∧
    blake3_hash (tv 1025) = [208, 2, 120, 174, 71, 235, 39, 179, 79, 174, 207, 103, 180, 254, 38, 63, 130, 213, 65, 41, 22, 193, 255, 217, 124, 140, 183, 251, 129, 75, 132, 68] := by decide!

theorem chunk_loop_fuel (fuel₁ fuel₂ : Nat) :
    ∀ (self : Blake3ChunkState) (input : List Nat),
      input.length ≤ fuel₁ → input.length ≤ fuel₂ →
      chunk_state_update_loop self input fuel₁ = chunk_state_update_loop self input fuel₂ := by
  induction fuel₁ generalizing fuel₂ with
  | zero =>
      intro self input h1 h2
      have : input = [] := by
        cases input with
        | nil => rfl
        | cons a l => simp at h1
      subst this
      cases fuel₂ with
      | zero => rfl
      | succ f =>
          rw [chunk_state_update_loop, chunk_state_update_loop]
          simp [BLAKE3_BLOCK_LEN]
  | succ f₁ ih =>
      intro self input h1 h2
      cases fuel₂ with
      | zero =>
          have : input = [] := by
            cases input with
            | nil => rfl
            | cons a l => simp at h2
          subst this
          rw [chunk_state_update_loop, chunk_state_update_loop]
          simp [BLAKE3_BLOCK_LEN]
      | succ f₂ =>
          rw [chunk_state_update_loop, chunk_state_update_loop]
          by_cases hc : BLAKE3_BLOCK_LEN < input.length
          · rw [if_pos hc, if_pos hc]
            exact ih f₂ _ _ (by simp [BLAKE3_BLOCK_LEN] at hc ⊢; omega)
              (by simp [BLAKE3_BLOCK_LEN] at hc ⊢; omega)
          · rw [if_neg hc, if_neg hc]

theorem chunk_loop_spec :
    ∀ (fuel : Nat) (self : Blake3ChunkState) (input : List Nat), input.length ≤ fuel →
      ((chunk_state_update_loop self input fuel).1.buf = self.buf ∧
       (chunk_state_update_loop self input fuel).1.chunk_counter = self.chunk_counter ∧
       (chunk_state_update_loop self input fuel).1.flags = self.flags) ∧
      (chunk_state_update_loop self input fuel).2.length ≤ 64 ∧
      64 * (chunk_state_update_loop self input fuel).1.blocks_compressed +
          (chunk_state_update_loop self input fuel).2.length =
        64 * self.blocks_compressed + input.length ∧
      (input ≠ [] → (chunk_state_update_loop self input fuel).2 ≠ []) := by
  intro fuel
  induction fuel with
  | zero =>
      intro self input h
      have : input = [] := by
        cases input with
        | nil => rfl
        | cons a l => simp at h
      subst this
      simp [chunk_state_update_loop]
  | succ f ih =>
      intro self input h
      rw [chunk_state_update_loop]
      by_cases hc : BLAKE3_BLOCK_LEN < input.length
      · rw [if_pos hc]
        have hlen : (input.drop 64).length ≤ f := by
          simp [BLAKE3_BLOCK_LEN] at hc ⊢
          omega
        have hlen64 : (input.drop 64).length = input.length - 64 := by simp
        generalize hS : ({ self with
            cv := compress_in_place self.cv (input.take 64) BLAKE3_BLOCK_LEN
              self.chunk_counter (self.flags ||| chunk_state_maybe_start_flag self),
            blocks_compressed := self.blocks_compressed + 1 } : Blake3ChunkState) = self'
        have hSbc : self'.blocks_compressed = self.blocks_compressed + 1 := by rw [← hS]
        have hSbuf : self'.buf = self.buf := by rw [← hS]
        have hScc : self'.chunk_counter = self.chunk_counter := by rw [← hS]
        have hSfl : self'.flags = self.flags := by rw [← hS]
        obtain ⟨⟨hb, hcc, hf⟩, hr, hcount, hne⟩ := ih self' (input.drop 64) hlen
        rw [hSbc] at hcount
        simp [BLAKE3_BLOCK_LEN] at hc
        refine ⟨⟨hb.trans hSbuf, hcc.trans hScc, hf.trans hSfl⟩, hr, by omega, fun _ => ?_⟩
        exact hne (by
          intro hdrop
          have := congrArg List.length hdrop
          simp at this
          omega)
      · rw [if_neg hc]
        simp only [BLAKE3_BLOCK_LEN, Nat.not_lt] at hc
        exact ⟨⟨rfl, rfl, rfl⟩, hc, rfl, fun hne => hne⟩

theorem chunk_loop_small (self : Blake3ChunkState) (input : List Nat) (fuel : Nat)
    (h : input.length ≤ 64) :
    chunk_state_update_loop self input fuel = (self, input) := by
  cases fuel with
  | zero => rfl
  | succ f =>
      rw [chunk_state_update_loop, if_neg (by simp [BLAKE3_BLOCK_LEN]; omega)]

theorem chunk_loop_append :
    ∀ (n : Nat) (u y : List Nat) (self : Blake3ChunkState), u.length ≤ n →
      chunk_state_update_loop self (u ++ y) (u ++ y).length =
        chunk_state_update_loop (chunk_state_update_loop self u u.length).1
          ((chunk_state_update_loop self u u.length).2 ++ y)
          ((chunk_state_update_loop self u u.length).2 ++ y).length := by
  intro n
  induction n with
  | zero =>
      intro u y self hu
      have : u = [] := by
        cases u with
        | nil => rfl
        | cons a l => simp at hu
      subst this
      rw [chunk_loop_small self [] ([].length) (by simp)]
  | succ n ih =>
      intro u y self hu
      rcases Nat.lt_or_ge 64 u.length with hbig | hsmall
      · -- u longer than a block: both sides step once on the same block
        obtain ⟨k, hk⟩ : ∃ k, (u ++ y).length = k + 1 := ⟨(u ++ y).length - 1, by simp; omega⟩
        obtain ⟨m, hm⟩ : ∃ m, u.length = m + 1 := ⟨u.length - 1, by omega⟩
        rw [hk, chunk_state_update_loop,
          if_pos (by simp [BLAKE3_BLOCK_LEN] at hk ⊢; omega)]
        conv_rhs => rw [hm, chunk_state_update_loop]
        rw [if_pos (by simpa [BLAKE3_BLOCK_LEN] using hbig)]
        rw [List.take_append_of_le_length (by omega),
          List.drop_append_of_le_length (by omega)]
        have hstep :
            chunk_state_update_loop
              { self with
                cv := compress_in_place self.cv (u.take 64) BLAKE3_BLOCK_LEN
                  self.chunk_counter (self.flags ||| chunk_state_maybe_start_flag self),
                blocks_compressed := self.blocks_compressed + 1 }
              (u.drop 64 ++ y) k =
            chunk_state_update_loop
              { self with
                cv := compress_in_place self.cv (u.take 64) BLAKE3_BLOCK_LEN
                  self.chunk_counter (self.flags ||| chunk_state_maybe_start_flag self),
                blocks_compressed := self.blocks_compressed + 1 }
              (u.drop 64 ++ y) (u.drop 64 ++ y).length :=
          chunk_loop_fuel _ _ _ _ (by simp at hk ⊢; omega) (by omega)
        rw [hstep, ih (u.drop 64) y _ (by simp; omega)]
        have hfuel2 :
            chunk_state_update_loop
              { self with
                cv := compress_in_place self.cv (u.take 64) BLAKE3_BLOCK_LEN
                  self.chunk_counter (self.flags ||| chunk_state_maybe_start_flag self),
                blocks_compressed := self.blocks_compressed + 1 }
              (u.drop 64) m =
            chunk_state_update_loop
              { self with
                cv := compress_in_place self.cv (u.take 64) BLAKE3_BLOCK_LEN
                  self.chunk_counter (self.flags ||| chunk_state_maybe_start_flag self),
                blocks_compressed := self.blocks_compressed + 1 }
              (u.drop 64) (u.drop 64).length :=
          chunk_loop_fuel _ _ _ _ (by simp; omega) (by omega)
        rw [hfuel2]
      · -- u fits in one block: the left loop consumes u together with y
        rw [chunk_loop_small self u u.length hsmall]

theorem fill_loop_eq (c : Blake3ChunkState) (u : List Nat) (hbuf : c.buf = []) :
    (chunk_state_fill_buf (chunk_state_update_loop c u u.length).1
      (chunk_state_update_loop c u u.length).2).1 =
    { (chunk_state_update_loop c u u.length).1 with
      buf := (chunk_state_update_loop c u u.length).2 } := by
  obtain ⟨⟨hb, _, _⟩, hr, _, _⟩ := chunk_loop_spec u.length c u (Nat.le_refl _)
  rw [chunk_state_fill_buf]
  rw [hb, hbuf]
  simp only [List.length_nil, Nat.sub_zero, List.nil_append]
  congr 1
  rw [Nat.min_eq_right hr, List.take_length]


theorem chunk_state_update_canon (c : Blake3ChunkState) (s : List Nat)
    (hb : c.buf.length ≤ 64) :
    chunk_state_update c s =
      { (chunk_state_update_loop { c with buf := [] } (c.buf ++ s)
          (c.buf ++ s).length).1 with
        buf := (chunk_state_update_loop { c with buf := [] } (c.buf ++ s)
          (c.buf ++ s).length).2 } := by
  obtain ⟨ccv, ccc, cbuf, cbc, cfl⟩ := c
  simp only at hb
  by_cases h0 : 0 < cbuf.length
  · by_cases habs : 0 < (s.drop ((64 - cbuf.length) ⊓ s.length)).length
    · -- the filled buffer is compressed, then the loop runs on the rest
      have hlt : 64 - cbuf.length < s.length := by
        simp at habs; omega
      have htk : (64 - cbuf.length) ⊓ s.length = 64 - cbuf.length := by omega
      simp only [chunk_state_update, chunk_state_fill_buf, if_pos h0, if_pos habs]
      rw [htk] at habs ⊢
      have hbuffull : (cbuf ++ s.take (64 - cbuf.length)).length = 64 := by
        simp; omega
      have hpad : pad64 (cbuf ++ s.take (64 - cbuf.length)) =
          cbuf ++ s.take (64 - cbuf.length) := by
        simp [pad64, hbuffull]
      have hblock : (cbuf ++ s).take 64 = cbuf ++ s.take (64 - cbuf.length) := by
        rw [List.take_append_eq_append_take, List.take_of_length_le hb]
      have hdrop : (cbuf ++ s).drop 64 = s.drop (64 - cbuf.length) := by
        rw [List.drop_append_eq_append_drop, List.drop_eq_nil_of_le hb, List.nil_append]
      obtain ⟨k, hk⟩ : ∃ k, (cbuf ++ s).length = k + 1 :=
        ⟨(cbuf ++ s).length - 1, by simp; omega⟩
      rw [hk, chunk_state_update_loop, if_pos (by simp [BLAKE3_BLOCK_LEN]; omega)]
      rw [hblock, hdrop]
      rw [show chunk_state_update_loop
            { cv := compress_in_place ccv (cbuf ++ List.take (64 - cbuf.length) s)
                BLAKE3_BLOCK_LEN ccc
                (cfl ||| chunk_state_maybe_start_flag
                  { cv := ccv, chunk_counter := ccc, buf := ([] : List Nat),
                    blocks_compressed := cbc, flags := cfl }),
              chunk_counter := ccc, buf := ([] : List Nat), blocks_compressed := cbc + 1,
              flags := cfl }
            (s.drop (64 - cbuf.length)) k =
          chunk_state_update_loop
            { cv := compress_in_place ccv (cbuf ++ List.take (64 - cbuf.length) s)
                BLAKE3_BLOCK_LEN ccc
                (cfl ||| chunk_state_maybe_start_flag
                  { cv := ccv, chunk_counter := ccc, buf := ([] : List Nat),
                    blocks_compressed := cbc, flags := cfl }),
              chunk_counter := ccc, buf := ([] : List Nat), blocks_compressed := cbc + 1,
              flags := cfl }
            (s.drop (64 - cbuf.length)) (s.drop (64 - cbuf.length)).length from
        chunk_loop_fuel _ _ _ _ (by simp at hk ⊢; omega) (Nat.le_refl _)]
      have hstart : chunk_state_maybe_start_flag
          { cv := ccv, chunk_counter := ccc, buf := ([] : List Nat),
            blocks_compressed := cbc, flags := cfl } =
          chunk_state_maybe_start_flag
          { cv := ccv, chunk_counter := ccc,
            buf := cbuf ++ List.take (64 - cbuf.length) s,
            blocks_compressed := cbc, flags := cfl } := rfl
      rw [hpad]
      exact fill_loop_eq _ _ rfl
    · -- everything is absorbed into the buffer
      have hsl : s.length ≤ 64 - cbuf.length := by
        simp at habs; omega
      have htk : (64 - cbuf.length) ⊓ s.length = s.length := by omega
      simp only [chunk_state_update, chunk_state_fill_buf, if_pos h0, if_neg habs]
      rw [htk, List.take_length, List.drop_length]
      rw [chunk_loop_small _ _ _ (by simp), chunk_loop_small _ _ _ (by simp; omega)]
      simp
  · have hnil : cbuf = [] := by
      cases cbuf with
      | nil => rfl
      | cons a l => simp at h0
    subst hnil
    simp only [chunk_state_update, if_neg h0]
    simpa using fill_loop_eq ⟨ccv, ccc, [], cbc, cfl⟩ s rfl

theorem buf_nil_eta (d : Blake3ChunkState) (h : d.buf = []) :
    { d with buf := ([] : List Nat) } = d := by
  rw [← h]

theorem chunk_state_update_append (c : Blake3ChunkState) (x y : List Nat)
    (hb : c.buf.length ≤ 64) :
    chunk_state_update (chunk_state_update c x) y = chunk_state_update c (x ++ y) := by
  obtain ⟨⟨hbuf, _, _⟩, hrest, _, _⟩ :=
    chunk_loop_spec (c.buf ++ x).length { c with buf := [] } (c.buf ++ x) (Nat.le_refl _)
  rw [chunk_state_update_canon c x hb]
  rw [chunk_state_update_canon _ y (by simpa using hrest)]
  rw [chunk_state_update_canon c (x ++ y) hb]
  simp only
  have hb0 : ({ c with buf := ([] : List Nat) } : Blake3ChunkState).buf = [] := rfl
  have heta :
      ({ (chunk_state_update_loop { c with buf := [] } (c.buf ++ x)
          (c.buf ++ x).length).1 with buf := ([] : List Nat) }) =
      (chunk_state_update_loop { c with buf := [] } (c.buf ++ x)
          (c.buf ++ x).length).1 :=
    buf_nil_eta _ (by rw [hbuf])
  rw [heta]
  have hassoc : c.buf ++ (x ++ y) = (c.buf ++ x) ++ y := (List.append_assoc _ _ _).symm
  rw [hassoc]
  rw [chunk_loop_append (c.buf ++ x).length (c.buf ++ x) y _ (Nat.le_refl _)]

theorem chunk_state_update_facts (c : Blake3ChunkState) (s : List Nat)
    (hb : c.buf.length ≤ 64) :
    (chunk_state_update c s).buf.length ≤ 64 ∧
    chunk_state_len (chunk_state_update c s) = chunk_state_len c + s.length ∧
    (chunk_state_update c s).chunk_counter = c.chunk_counter ∧
    (chunk_state_update c s).flags = c.flags ∧
    ((0 < c.blocks_compressed → c.buf ≠ []) →
      0 < (chunk_state_update c s).blocks_compressed →
        (chunk_state_update c s).buf ≠ []) := by
  obtain ⟨⟨hbuf, hcc, hfl⟩, hlen, hcount, hne⟩ :=
    chunk_loop_spec (c.buf ++ s).length { c with buf := [] } (c.buf ++ s)
      (Nat.le_refl _)
  rw [chunk_state_update_canon c s hb]
  generalize hP : chunk_state_update_loop { c with buf := [] } (c.buf ++ s)
      (c.buf ++ s).length = P at hbuf hcc hfl hlen hcount hne ⊢
  obtain ⟨Q, R⟩ := P
  obtain ⟨ccv, ccc, cbuf, cbc, cfl⟩ := c
  simp only at hbuf hcc hfl hlen hcount hne ⊢
  refine ⟨hlen, ?_, hcc, hfl, ?_⟩
  · simp only [chunk_state_len, BLAKE3_BLOCK_LEN, List.length_append] at hcount ⊢
    omega
  · intro hinv hpos
    apply hne
    intro hnil
    rw [List.append_eq_nil] at hnil
    obtain ⟨h1, h2⟩ := hnil
    subst h1; subst h2
    have hcbc : cbc = 0 := by
      by_contra hz
      exact hinv (Nat.pos_of_ne_zero hz) rfl
    simp only [List.nil_append, List.length_nil, hcbc] at hcount
    omega



theorem hasher_go_nil (h : Blake3Hasher) (fuel : Nat) :
    blake3_hasher_update_go h [] fuel = h := by
  cases fuel <;> rfl

theorem hasher_go_succ (h : Blake3Hasher) (input : List Nat) (fuel : Nat)
    (hne : input ≠ []) :
    blake3_hasher_update_go h input (fuel + 1) =
      (let self := hasher_flush h
       let want := BLAKE3_CHUNK_LEN - chunk_state_len self.chunk
       let take := if want < input.length then want else input.length
       blake3_hasher_update_go
         { self with chunk := chunk_state_update self.chunk (input.take take) }
         (input.drop take) fuel) := by
  show (if input = [] then h else _) = _
  rw [if_neg hne]
  rfl

theorem hasher_flush_id (h : Blake3Hasher)
    (hne : chunk_state_len h.chunk ≠ BLAKE3_CHUNK_LEN) : hasher_flush h = h := by
  rw [hasher_flush, if_neg hne]

theorem hasher_flush_wf (h : Blake3Hasher) (hwf : HasherWF h) :
    HasherWF (hasher_flush h) ∧ chunk_state_len (hasher_flush h).chunk < 1024 := by
  rw [hasher_flush]
  by_cases hc : chunk_state_len h.chunk = BLAKE3_CHUNK_LEN
  · rw [if_pos hc]
    refine ⟨⟨?_, ?_, ?_⟩, ?_⟩ <;>
      simp [HasherWF, chunk_state_len, chunk_state_init, hasher_push_cv,
        hasher_merge_cv_stack, BLAKE3_BLOCK_LEN]
  · rw [if_neg hc]
    obtain ⟨h1, h2, h3⟩ := hwf
    refine ⟨⟨h1, h2, h3⟩, ?_⟩
    simp only [BLAKE3_CHUNK_LEN] at hc
    omega

theorem hasher_step_wf (h : Blake3Hasher) (hwf : HasherWF h) (s : List Nat)
    (hs : s.length ≤ 1024 - chunk_state_len (hasher_flush h).chunk) :
    HasherWF
      { hasher_flush h with
        chunk := chunk_state_update (hasher_flush h).chunk s } := by
  obtain ⟨⟨f1, f2, f3⟩, flt⟩ := hasher_flush_wf h hwf
  obtain ⟨u1, u2, _, _, u5⟩ := chunk_state_update_facts (hasher_flush h).chunk s f2
  refine ⟨?_, u1, u5 f3⟩
  rw [u2]
  omega

theorem hasher_go_wf (fuel : Nat) :
    ∀ (h : Blake3Hasher) (input : List Nat), HasherWF h →
      HasherWF (blake3_hasher_update_go h input fuel) := by
  induction fuel with
  | zero => intro h input hwf; exact hwf
  | succ f ih =>
      intro h input hwf
      by_cases hne : input = []
      · subst hne; rw [hasher_go_nil]; exact hwf
      · rw [hasher_go_succ h input f hne]
        simp only
        apply ih
        apply hasher_step_wf h hwf
        have hlt := (hasher_flush_wf h hwf).2
        have : (if 1024 - chunk_state_len (hasher_flush h).chunk < input.length
            then 1024 - chunk_state_len (hasher_flush h).chunk
            else input.length) ≤ 1024 - chunk_state_len (hasher_flush h).chunk := by
          split <;> omega
        calc (input.take _).length ≤ _ := by
              rw [List.length_take]; exact Nat.min_le_left _ _
          _ ≤ _ := this

theorem hasher_take_le (h : Blake3Hasher) (hwf : HasherWF h) (m : Nat) :
    (1 ≤ m →
      1 ≤ (if 1024 - chunk_state_len (hasher_flush h).chunk < m
        then 1024 - chunk_state_len (hasher_flush h).chunk else m)) ∧
    (if 1024 - chunk_state_len (hasher_flush h).chunk < m
        then 1024 - chunk_state_len (hasher_flush h).chunk else m) ≤
      1024 - chunk_state_len (hasher_flush h).chunk := by
  have hlt := (hasher_flush_wf h hwf).2
  constructor
  · intro hm; split <;> omega
  · split <;> omega

theorem hasher_go_fuel (n : Nat) :
    ∀ (h : Blake3Hasher) (input : List Nat) (f1 f2 : Nat),
      input.length ≤ n → input.length ≤ f1 → input.length ≤ f2 → HasherWF h →
      blake3_hasher_update_go h input f1 = blake3_hasher_update_go h input f2 := by
  induction n with
  | zero =>
      intro h input f1 f2 hn _ _ _
      have : input = [] := List.eq_nil_of_length_eq_zero (Nat.le_zero.mp hn)
      subst this
      rw [hasher_go_nil, hasher_go_nil]
  | succ n ih =>
      intro h input f1 f2 hn hf1 hf2 hwf
      by_cases hne : input = []
      · subst hne; rw [hasher_go_nil, hasher_go_nil]
      · have hpos : 1 ≤ input.length := by
          cases input with
          | nil => exact absurd rfl hne
          | cons a l => simp
        obtain ⟨g1, rfl⟩ : ∃ k, f1 = k + 1 := ⟨f1 - 1, by omega⟩
        obtain ⟨g2, rfl⟩ : ∃ k, f2 = k + 1 := ⟨f2 - 1, by omega⟩
        rw [hasher_go_succ h input g1 hne, hasher_go_succ h input g2 hne]
        simp only [BLAKE3_CHUNK_LEN]
        obtain ⟨ht1, ht2⟩ := hasher_take_le h hwf input.length
        have htake := ht1 hpos
        apply ih
        · rw [List.length_drop]; omega
        · rw [List.length_drop]; omega
        · rw [List.length_drop]; omega
        · apply hasher_step_wf h hwf
          rw [List.length_take]
          exact le_trans (Nat.min_le_left _ _) ht2

theorem hasher_update_cons (h : Blake3Hasher) (hwf : HasherWF h) (x : Nat)
    (xs : List Nat) :
    blake3_hasher_update h (x :: xs) =
      blake3_hasher_update (blake3_hasher_update h [x]) xs := by
  obtain ⟨⟨f1, f2, f3⟩, hlt⟩ := hasher_flush_wf h hwf
  obtain ⟨w, hw⟩ : ∃ w, 1024 - chunk_state_len (hasher_flush h).chunk = w + 1 :=
    ⟨1023 - chunk_state_len (hasher_flush h).chunk, by omega⟩
  have h1 : blake3_hasher_update h [x] =
      { hasher_flush h with
        chunk := chunk_state_update (hasher_flush h).chunk [x] } := by
    show blake3_hasher_update_go h [x] 1 = _
    rw [hasher_go_succ h [x] 0 (by simp)]
    simp only [BLAKE3_CHUNK_LEN, List.length_cons, List.length_nil]
    rw [if_neg (by omega)]
    rfl
  have hlen1 : chunk_state_len (chunk_state_update (hasher_flush h).chunk [x]) =
      chunk_state_len (hasher_flush h).chunk + 1 := by
    have := (chunk_state_update_facts (hasher_flush h).chunk [x] f2).2.1
    simpa using this
  rw [h1]
  show blake3_hasher_update_go h (x :: xs) (xs.length + 1) =
    blake3_hasher_update_go
      { hasher_flush h with
        chunk := chunk_state_update (hasher_flush h).chunk [x] } xs xs.length
  rw [hasher_go_succ h (x :: xs) xs.length (by simp)]
  simp only [BLAKE3_CHUNK_LEN, List.length_cons]
  by_cases hA : 1024 - chunk_state_len (hasher_flush h).chunk < xs.length + 1
  · rw [if_pos hA]
    rw [hw, List.take_succ_cons, List.drop_succ_cons]
    by_cases hw0 : w = 0
    · subst hw0
      simp only [List.take_zero, List.drop_zero]
    · have hww : w < xs.length := by omega
      obtain ⟨m, hm⟩ : ∃ m, xs.length = m + 1 := ⟨xs.length - 1, by omega⟩
      have hxs : xs ≠ [] := List.length_pos.mp (by omega)
      have hflush1 : hasher_flush
          ({ hasher_flush h with
            chunk := chunk_state_update (hasher_flush h).chunk [x] } :
              Blake3Hasher) =
          { hasher_flush h with
            chunk := chunk_state_update (hasher_flush h).chunk [x] } := by
        apply hasher_flush_id
        show chunk_state_len (chunk_state_update (hasher_flush h).chunk [x]) ≠
          BLAKE3_CHUNK_LEN
        simp only [BLAKE3_CHUNK_LEN]
        rw [hlen1]
        omega
      conv_rhs => rw [hm]
      rw [hasher_go_succ _ xs m hxs]
      simp only [BLAKE3_CHUNK_LEN]
      rw [hflush1]
      simp only
      rw [hlen1]
      have hw2 : 1024 - (chunk_state_len (hasher_flush h).chunk + 1) = w := by omega
      rw [hw2, if_pos hww]
      rw [chunk_state_update_append (hasher_flush h).chunk [x] (xs.take w) f2]
      simp only [List.singleton_append]
      apply hasher_go_fuel (xs.drop w).length
      · exact Nat.le_refl _
      · rw [List.length_drop]; omega
      · rw [List.length_drop]; omega
      · have hs : (x :: xs.take w).length ≤
            1024 - chunk_state_len (hasher_flush h).chunk := by
          simp only [List.length_cons, List.length_take]
          omega
        exact hasher_step_wf h hwf (x :: xs.take w) hs
  · rw [if_neg hA]
    rw [List.take_succ_cons, List.drop_succ_cons, List.take_length,
      List.drop_length, hasher_go_nil]
    by_cases hxs : xs = []
    · subst hxs
      rw [hasher_go_nil]
    · obtain ⟨m, hm⟩ : ∃ m, xs.length = m + 1 :=
        ⟨xs.length - 1, by
          have := List.length_pos.mpr hxs
          omega⟩
      have hxl : 1 ≤ xs.length := List.length_pos.mpr hxs
      have hflush1 : hasher_flush
          ({ hasher_flush h with
            chunk := chunk_state_update (hasher_flush h).chunk [x] } :
              Blake3Hasher) =
          { hasher_flush h with
            chunk := chunk_state_update (hasher_flush h).chunk [x] } := by
        apply hasher_flush_id
        show chunk_state_len (chunk_state_update (hasher_flush h).chunk [x]) ≠
          BLAKE3_CHUNK_LEN
        simp only [BLAKE3_CHUNK_LEN]
        rw [hlen1]
        omega
      conv_rhs => rw [hm]
      rw [hasher_go_succ _ xs m hxs]
      simp only [BLAKE3_CHUNK_LEN]
      rw [hflush1]
      simp only
      rw [hlen1]
      rw [if_neg (by omega), List.take_length, List.drop_length, hasher_go_nil]
      rw [chunk_state_update_append (hasher_flush h).chunk [x] xs f2]
      simp only [List.singleton_append]

theorem blake3_hasher_init_wf : HasherWF blake3_hasher_init := by
  refine ⟨?_, ?_, ?_⟩ <;> decide

theorem hasher_update_append : ∀ (X1 : List Nat) (h : Blake3Hasher),
    HasherWF h → ∀ (X2 : List Nat),
      blake3_hasher_update (blake3_hasher_update h X1) X2 =
        blake3_hasher_update h (X1 ++ X2) := by
  intro X1
  induction X1 with
  | nil => intro h _ X2; rfl
  | cons x xs ih =>
      intro h hwf X2
      simp only [List.cons_append]
      rw [hasher_update_cons h hwf x xs]
      have hwf1 : HasherWF (blake3_hasher_update h [x]) :=
        hasher_go_wf ([x].length) h [x] hwf
      rw [ih (blake3_hasher_update h [x]) hwf1 X2]
      rw [← hasher_update_cons h hwf x (xs ++ X2)]

/-- C3: initialising a hasher, feeding it X1 and then X2 with two update
calls, and finalizing with 32 output bytes yields exactly the one-shot
blake3_hash digest of X1 ++ X2, for every split point. -/
theorem blake3_c3_split_equiv (X1 X2 : List Nat) :
    blake3_hasher_finalize
      (blake3_hasher_update (blake3_hasher_update blake3_hasher_init X1) X2)
      32 =
    blake3_hash (X1 ++ X2) := by
  rw [hasher_update_append X1 blake3_hasher_init blake3_hasher_init_wf X2]
  rfl


theorem blake3_reachable_wf (h : Blake3Hasher) (hr : Blake3Reachable h) :
    HasherWF h := by
  induction hr with
  | init => exact blake3_hasher_init_wf
  | init_keyed key => refine ⟨?_, ?_, ?_⟩ <;> simp [blake3_hasher_init_keyed,
      chunk_state_init, chunk_state_len, HasherWF]
  | init_derive_key context => refine ⟨?_, ?_, ?_⟩ <;>
      simp [blake3_hasher_init_derive_key_raw, chunk_state_init,
        chunk_state_len, HasherWF]
  | update h input _ ih => exact hasher_go_wf input.length h input ih

/-- C9: every hasher state reachable by an init variant followed by any
sequence of update calls keeps the active chunk buffer at most 64 bytes long
and its compressed block count at most 15. -/
theorem blake3_c9_invariant (h : Blake3Hasher) (hr : Blake3Reachable h) :
    h.chunk.buf.length ≤ 64 ∧ h.chunk.blocks_compressed ≤ 15 := by
  obtain ⟨h1, h2, h3⟩ := blake3_reachable_wf h hr
  refine ⟨h2, ?_⟩
  rw [chunk_state_len, BLAKE3_BLOCK_LEN] at h1
  by_cases hbc : h.chunk.blocks_compressed = 0
  · omega
  · have hb := h3 (Nat.pos_of_ne_zero hbc)
    have : 1 ≤ h.chunk.buf.length := List.length_pos.mpr hb
    omega

theorem blake3_c9_witness :
    (blake3_hasher_update blake3_hasher_init [7]).chunk.buf.length ≤ 64 ∧
    (blake3_hasher_update blake3_hasher_init [7]).chunk.blocks_compressed ≤ 15 :=
  blake3_c9_invariant _ (Blake3Reachable.update _ _ Blake3Reachable.init)

set_option maxRecDepth 1000000 in
/-- C1, divergence evidence: on the 2049-byte standard test-vector input the
repository's blake3_hash returns the first digest below, which differs from
the published BLAKE3 test vector for that length, the second digest below
(hex 5f4d72f40d7a5f82b15ca2b2e44b1de3c2ef86c426c95c1af0b6879522563030). -/
theorem blake3_c1_divergence :
    blake3_hash (tv 2049) =
      [152, 44, 26, 159, 196, 218, 186, 227, 168, 4, 97, 147, 55, 242, 66,
       153, 78, 169, 70, 205, 34, 249, 78, 168, 82, 218, 151, 230, 137, 57,
       67, 121] ∧
    blake3_hash (tv 2049) ≠
      [95, 77, 114, 244, 13, 122, 95, 130, 177, 92, 162, 178, 228, 75, 29,
       227, 194, 239, 134, 196, 38, 201, 92, 26, 240, 182, 135, 149, 34, 86,
       48, 48] := by decide!
